import Mathlib

/-!
Shallow embedding of `src/src/xdist/scheduler/each.py` (`EachScheduling`).

Modelling choices:
* A `Worker` models a `WorkerController` handle: `tag` models Python object
  identity (dict keys), `wid` models `gateway.id`, `spec` models `gateway.spec`.
* Python `dict`s keep insertion order; we model them as association lists
  (`AList`): update-in-place keeps the position, a new key is appended at the
  end, and iteration (`for k in d`, `.items()`) is list order.
* Fallible Python operations (failed `assert`, `KeyError`, `ValueError`,
  `IndexError` from `list.remove` / dict and list indexing) are modelled with
  `Except`: an operation that raises returns `.error` and produces no new
  state.  Reachability of scheduler states is defined over successful steps.
* Commands sent to worker handles (`send_runtest_all`, `send_runtest_some`,
  `shutdown`) and diagnostics emitted through `self.log` are modelled as an
  ordered list of emitted `Msg` values returned alongside the new state.
-/

namespace EachSched

/-- A worker handle: `tag` stands for object identity, `wid` for
`gateway.id`, `spec` for `gateway.spec`. -/
structure Worker where
  tag : Nat
  wid : String
  spec : String
deriving DecidableEq, Repr

/-- Errors raised by the Python code: failed `assert`, dict `KeyError`,
`list.remove` `ValueError`, list-index `IndexError`. -/
inductive SchedErr where
  | assertionError
  | keyError
  | valueError
  | indexError
deriving DecidableEq, Repr

/-- Messages emitted by the scheduler: commands to worker handles and
diagnostics sent to the log (`report_collection_diff` output is kept
symbolically as its four arguments). -/
inductive Msg where
  | runAll (w : Worker)
  | runSome (w : Worker) (pending : List Nat)
  | shutdown (w : Worker)
  | diag (deadColl newColl : List String) (deadId newId : String)
deriving DecidableEq, Repr

/-- Insertion-ordered association list, modelling a Python `dict` keyed by
worker handles. -/
abbrev AList (α : Type) := List (Worker × α)

/-- `d[k] = v`: update in place if the key exists, else append. -/
def aset {α : Type} : AList α → Worker → α → AList α
  | [], k, v => [(k, v)]
  | (k', v') :: rest, k, v =>
      if k' = k then (k, v) :: rest else (k', v') :: aset rest k v

/-- `d.get(k)`: first value stored under the key. -/
def aget? {α : Type} : AList α → Worker → Option α
  | [], _ => none
  | (k', v') :: rest, k => if k' = k then some v' else aget? rest k

/-- `d.pop(k)` (the removal part): drop the first entry with this key. -/
def apop {α : Type} : AList α → Worker → AList α
  | [], _ => []
  | (k', v') :: rest, k => if k' = k then rest else (k', v') :: apop rest k

/-- `k in d`. -/
def acontains {α : Type} (m : AList α) (k : Worker) : Bool :=
  (aget? m k).isSome

/-- The `EachScheduling` instance state. -/
structure SchedState where
  numnodes : Nat
  node2collection : AList (List String)
  node2pending : AList (List Nat)
  started : List Worker
  removed2pending : AList (List Nat)
  collection_is_completed : Bool
  allowed_workers : List String
deriving DecidableEq, Repr

/-- State right after `__init__`: empty maps, collection not completed;
`numnodes` comes from the configuration, `allowed_workers` from the
`XDIST_ALLOWED_WORKERS` environment variable (empty list: no restriction). -/
def initState (numnodes : Nat) (allowed : List String) : SchedState :=
  { numnodes := numnodes
    node2collection := []
    node2pending := []
    started := []
    removed2pending := []
    collection_is_completed := false
    allowed_workers := allowed }

/-- `_is_allowed_worker`: an empty allow-list means every worker is allowed,
otherwise membership of the worker's id. -/
def is_allowed_worker (allowed : List String) (w : Worker) : Bool :=
  if allowed = [] then true else decide (w.wid ∈ allowed)

/-- `tests_finished`: collection completed, no orphaned pending work, and
every worker has fewer than two pending items. -/
def tests_finished (s : SchedState) : Bool :=
  if !s.collection_is_completed then false
  else if !s.removed2pending.isEmpty then false
  else s.node2pending.all (fun e => decide (e.2.length < 2))

/-- `has_pending`: some worker has a non-empty pending list. -/
def has_pending (s : SchedState) : Bool :=
  s.node2pending.any (fun e => !e.2.isEmpty)

/-- `add_node`: register a worker; asserts it is not yet registered. -/
def add_node (s : SchedState) (w : Worker) : Except SchedErr SchedState :=
  if acontains s.node2pending w then .error .assertionError
  else .ok { s with node2pending := aset s.node2pending w [] }

/-- The `for deadnode in self._removed2pending` loop's search: first entry
(in insertion order) whose worker's spec equals the given spec. -/
def findSpecMatch : AList (List Nat) → String → Option (Worker × List Nat)
  | [], _ => none
  | (d, p) :: rest, sp => if d.spec = sp then some (d, p) else findSpecMatch rest sp

/-- `add_node_collection`: record a node's collection.  Before completion the
collection is stored and pending reset; after completion a spec-matching dead
node's pending may be handed over, guarded by collection equality. -/
def add_node_collection (s : SchedState) (w : Worker) (collection : List String) :
    Except SchedErr (SchedState × List Msg) :=
  if !acontains s.node2pending w then .error .assertionError
  else if !s.collection_is_completed then
    let coll' := aset s.node2collection w collection
    let completed := if coll'.length ≥ s.numnodes then true else s.collection_is_completed
    .ok ({ s with node2collection := coll'
                  node2pending := aset s.node2pending w []
                  collection_is_completed := completed }, [])
  else if s.removed2pending.isEmpty then .ok (s, [])
  else
    match findSpecMatch s.removed2pending w.spec with
    | none => .ok (s, [])
    | some (d, deadPending) =>
      match aget? s.node2collection d with
      | none => .error .keyError
      | some deadColl =>
        if collection ≠ deadColl then
          .ok (s, [Msg.diag deadColl collection d.wid w.wid])
        else
          .ok ({ s with removed2pending := apop s.removed2pending d
                        node2pending := aset s.node2pending w deadPending }, [])

/-- Python `list.remove`: drop the first occurrence, `none` (`ValueError`)
when the value is absent. -/
def listRemoveFirst : List Nat → Nat → Option (List Nat)
  | [], _ => none
  | x :: rest, v =>
      if x = v then some rest else (listRemoveFirst rest v).map (fun l => x :: l)

/-- `mark_test_complete`: remove the index from the node's pending list;
`KeyError` on an unregistered node, `ValueError` on an index not pending. -/
def mark_test_complete (s : SchedState) (w : Worker) (idx : Nat) :
    Except SchedErr SchedState :=
  match aget? s.node2pending w with
  | none => .error .keyError
  | some pending =>
    match listRemoveFirst pending idx with
    | none => .error .valueError
    | some pending' => .ok { s with node2pending := aset s.node2pending w pending' }

/-- `remove_node`: pop the node's pending list; with outstanding work, the
head index names the crash item (looked up in the node's stored collection)
and any remaining indices are stashed in `_removed2pending`. -/
def remove_node (s : SchedState) (w : Worker) :
    Except SchedErr (SchedState × Option String) :=
  match aget? s.node2pending w with
  | none => .error .keyError
  | some pending =>
    let s1 := { s with node2pending := apop s.node2pending w }
    match pending with
    | [] => .ok (s1, none)
    | h :: t =>
      match aget? s.node2collection w with
      | none => .error .keyError
      | some coll =>
        match coll.get? h with
        | none => .error .indexError
        | some crashitem =>
          if t ≠ [] then
            .ok ({ s1 with removed2pending := aset s1.removed2pending w t }, some crashitem)
          else
            .ok (s1, some crashitem)

/-- The `for node, pending in self.node2pending.items()` loop of
`schedule`, threading the growing `started` list and the emitted messages. -/
def scheduleLoop (coll : AList (List String)) (allowed : List String) :
    List (Worker × List Nat) → List Worker →
    Except SchedErr (List (Worker × List Nat) × List Worker × List Msg)
  | [], started => .ok ([], started, [])
  | (w, pending) :: rest, started =>
    if w ∈ started then
      (scheduleLoop coll allowed rest started).map
        (fun r => ((w, pending) :: r.1, r.2.1, r.2.2))
    else if !is_allowed_worker allowed w then
      (scheduleLoop coll allowed rest (started ++ [w])).map
        (fun r => ((w, pending) :: r.1, r.2.1, Msg.shutdown w :: r.2.2))
    else if pending = [] then
      match aget? coll w with
      | none => .error .keyError
      | some c =>
        (scheduleLoop coll allowed rest (started ++ [w])).map
          (fun r => ((w, List.range c.length) :: r.1, r.2.1,
                     Msg.runAll w :: Msg.shutdown w :: r.2.2))
    else
      (scheduleLoop coll allowed rest (started ++ [w])).map
        (fun r => ((w, pending) :: r.1, r.2.1, Msg.runSome w pending :: r.2.2))

/-- `schedule`: asserts collection completion, then dispatches every
not-yet-started node. -/
def schedule (s : SchedState) : Except SchedErr (SchedState × List Msg) :=
  if !s.collection_is_completed then .error .assertionError
  else
    match scheduleLoop s.node2collection s.allowed_workers s.node2pending s.started with
    | .error e => .error e
    | .ok (entries, started', msgs) =>
      .ok ({ s with node2pending := entries, started := started' }, msgs)

/-- One external event driving the scheduler. -/
inductive Op where
  | join (w : Worker)
  | report (w : Worker) (collection : List String)
  | markComplete (w : Worker) (idx : Nat)
  | removeWorker (w : Worker)
  | dispatch
deriving DecidableEq, Repr

/-- Apply one event, keeping only the resulting state. -/
def applyOp (s : SchedState) : Op → Except SchedErr SchedState
  | .join w => add_node s w
  | .report w c => (add_node_collection s w c).map Prod.fst
  | .markComplete w i => mark_test_complete s w i
  | .removeWorker w => (remove_node s w).map Prod.fst
  | .dispatch => (schedule s).map Prod.fst

/-- States reachable from a freshly constructed scheduler through successful
operations. -/
inductive Reachable : SchedState → Prop where
  | init (n : Nat) (allowed : List String) : Reachable (initState n allowed)
  | step {s s' : SchedState} (op : Op) :
      Reachable s → applyOp s op = .ok s' → Reachable s'

/-- Is a message addressed to this worker handle? -/
def msgFor (w : Worker) : Msg → Bool
  | .runAll w' => decide (w' = w)
  | .runSome w' _ => decide (w' = w)
  | .shutdown w' => decide (w' = w)
  | .diag _ _ _ _ => false

/-- The sub-sequence of messages addressed to one worker. -/
def msgsFor (w : Worker) (ms : List Msg) : List Msg :=
  ms.filter (msgFor w)

/-! ### Concrete example workers, states and runs used in the proofs -/

def wA : Worker := ⟨0, "gw0", "S"⟩

def wB : Worker := ⟨1, "gw1", "S"⟩

def wC : Worker := ⟨2, "gw2", "S"⟩

def wD : Worker := ⟨3, "gw3", "T"⟩

/-- Post-completion state with one recorded collection and two registered
workers; `wD`'s spec matches nothing in the (empty) `removed2pending`. -/
def s1c : SchedState :=
  ⟨1, [(wA, ["t0"])], [(wA, []), (wD, [])], [], [], true, []⟩

/-- A run in which worker `wA` joins, reports, is dispatched and dies, after
which replacement `wB` joins and reports the identical collection. -/
def opsA : List Op :=
  [.join wA, .report wA ["t0", "t1", "t2"], .dispatch, .removeWorker wA,
   .join wB, .report wB ["t0", "t1", "t2"]]

/-- The state `opsA` ends in: `wB` inherited pending `[1, 2]` from dead `wA`
but has no entry of its own in `node2collection`. -/
def sBad : SchedState :=
  ⟨1, [(wA, ["t0", "t1", "t2"])], [(wB, [1, 2])], [wA], [], true, []⟩

/-- Dispatch scenario with an allow-list: `wA` is allowed, `wD` is not. -/
def s3w : SchedState :=
  ⟨2, [(wA, ["t0", "t1"]), (wD, ["t0", "t1"])], [(wA, []), (wD, [])], [], [],
   true, ["gw0"]⟩

/-- Result state of `schedule s3w`. -/
def s3wOut : SchedState :=
  ⟨2, [(wA, ["t0", "t1"]), (wD, ["t0", "t1"])], [(wA, [0, 1]), (wD, [])],
   [wA, wD], [], true, ["gw0"]⟩

/-- Messages emitted by `schedule s3w`. -/
def msgs3wOut : List Msg :=
  [Msg.runAll wA, Msg.shutdown wA, Msg.shutdown wD]

/-- One completed worker awaiting dispatch. -/
def sW : SchedState :=
  ⟨1, [(wA, ["t0", "t1", "t2"])], [(wA, [])], [], [], true, []⟩

/-- Result state of `schedule sW`. -/
def sWOut : SchedState :=
  ⟨1, [(wA, ["t0", "t1", "t2"])], [(wA, [0, 1, 2])], [wA], [], true, []⟩

/-- Two dead workers (`wA`, `wB`) share spec `S` with different recorded
collections; replacement `wC` is registered and idle. -/
def sC5x : SchedState :=
  ⟨2, [(wA, ["a", "b", "c"]), (wB, ["a", "b", "d"])], [(wC, [])], [wA, wB],
   [(wA, [1, 2]), (wB, [1, 2])], true, []⟩

/-- State after `wC` reports `wA`'s collection in `sC5x`: the hand-off with
`wA` happens silently although `wB` also matches by spec. -/
def sC5xOut : SchedState :=
  ⟨2, [(wA, ["a", "b", "c"]), (wB, ["a", "b", "d"])], [(wC, [1, 2])], [wA, wB],
   [(wB, [1, 2])], true, []⟩

/-- One dead worker with orphaned work; idle replacement `wC` registered. -/
def s5w : SchedState :=
  ⟨2, [(wA, ["a", "b", "c"])], [(wC, [])], [wA], [(wA, [1, 2])], true, []⟩

/-- A started worker with three pending indices, about to die. -/
def s4w : SchedState :=
  ⟨1, [(wA, ["t0", "t1", "t2"])], [(wA, [0, 1, 2])], [wA], [], true, []⟩

/-- Result state of `remove_node s4w wA`. -/
def s4wOut : SchedState :=
  ⟨1, [(wA, ["t0", "t1", "t2"])], [], [wA], [(wA, [1, 2])], true, []⟩

/-- Pre-completion state expecting two workers, one collection outstanding. -/
def s8w : SchedState :=
  ⟨2, [(wA, ["t0"])], [(wA, []), (wB, [])], [], [], false, []⟩

/-- State after `wB` reports in `s8w`: the second report completes
collection. -/
def s8wOut : SchedState :=
  ⟨2, [(wA, ["t0"]), (wB, ["t0"])], [(wA, []), (wB, [])], [], [], true, []⟩

/-! ### Association-list lemmas -/

theorem aget?_aset_self {α : Type} (m : AList α) (k : Worker) (v : α) :
    aget? (aset m k v) k = some v := by
  induction m with
  | nil => simp [aset, aget?]
  | cons hd tl ih =>
    obtain ⟨k', v'⟩ := hd
    by_cases h : k' = k
    · simp [aset, aget?, h]
    · simp [aset, aget?, h, ih]

theorem aget?_aset_ne {α : Type} (m : AList α) {k k' : Worker} (v : α)
    (hne : k' ≠ k) : aget? (aset m k v) k' = aget? m k' := by
  have hne' : k ≠ k' := Ne.symm hne
  induction m with
  | nil => simp [aset, aget?, hne']
  | cons hd tl ih =>
    obtain ⟨k₀, v₀⟩ := hd
    by_cases h : k₀ = k
    · subst h
      simp [aset, aget?, hne']
    · simp only [aset, if_neg h]
      by_cases h' : k₀ = k'
      · simp [aget?, h']
      · simp [aget?, h', ih]

theorem mem_aset {α : Type} {m : AList α} {k : Worker} {v : α} {e : Worker × α}
    (he : e ∈ aset m k v) : e = (k, v) ∨ e ∈ m := by
  induction m with
  | nil => simpa [aset] using he
  | cons hd tl ih =>
    obtain ⟨k', v'⟩ := hd
    by_cases h : k' = k
    · subst h
      simp only [aset, if_pos rfl] at he
      rcases List.mem_cons.mp he with he | he
      · exact Or.inl he
      · exact Or.inr (List.mem_cons_of_mem _ he)
    · simp only [aset, if_neg h] at he
      rcases List.mem_cons.mp he with he | he
      · exact Or.inr (by simp [he])
      · rcases ih he with h1 | h1
        · exact Or.inl h1
        · exact Or.inr (List.mem_cons_of_mem _ h1)

theorem aget?_mem {α : Type} {m : AList α} {k : Worker} {v : α}
    (h : aget? m k = some v) : (k, v) ∈ m := by
  induction m with
  | nil => simp [aget?] at h
  | cons hd tl ih =>
    obtain ⟨k', v'⟩ := hd
    by_cases hk : k' = k
    · subst hk
      simp [aget?] at h
      subst h
      exact List.mem_cons_self _ _
    · simp only [aget?, if_neg hk] at h
      exact List.mem_cons_of_mem _ (ih h)

theorem apop_sublist {α : Type} (m : AList α) (k : Worker) :
    List.Sublist (apop m k) m := by
  induction m with
  | nil => simp [apop]
  | cons hd tl ih =>
    obtain ⟨k', v'⟩ := hd
    by_cases h : k' = k
    · simp only [apop, if_pos h]
      exact List.sublist_cons_self _ _
    · simp only [apop, if_neg h]
      exact ih.cons₂ _

theorem findSpecMatch_mem {m : AList (List Nat)} {sp : String}
    {d : Worker} {p : List Nat} (h : findSpecMatch m sp = some (d, p)) :
    (d, p) ∈ m ∧ d.spec = sp := by
  induction m with
  | nil => simp [findSpecMatch] at h
  | cons hd tl ih =>
    obtain ⟨d', p'⟩ := hd
    by_cases hs : d'.spec = sp
    · simp only [findSpecMatch, if_pos hs, Option.some.injEq] at h
      obtain ⟨rfl, rfl⟩ := Prod.mk.injEq .. ▸ h
      exact ⟨List.mem_cons_self _ _, hs⟩
    · simp only [findSpecMatch, if_neg hs] at h
      exact ⟨List.mem_cons_of_mem _ (ih h).1, (ih h).2⟩

theorem listRemoveFirst_sublist :
    ∀ {l l' : List Nat} {v : Nat}, listRemoveFirst l v = some l' →
      List.Sublist l' l := by
  intro l
  induction l with
  | nil => intro l' v h; simp [listRemoveFirst] at h
  | cons x rest ih =>
    intro l' v h
    by_cases hx : x = v
    · simp only [listRemoveFirst, if_pos hx, Option.some.injEq] at h
      subst h
      exact List.sublist_cons_self _ _
    · simp only [listRemoveFirst, if_neg hx, Option.map_eq_some'] at h
      obtain ⟨a, ha, rfl⟩ := h
      exact (ih ha).cons₂ _

theorem listRemoveFirst_eq_none {l : List Nat} {v : Nat} :
    listRemoveFirst l v = none ↔ v ∉ l := by
  induction l with
  | nil => simp [listRemoveFirst]
  | cons x rest ih =>
    by_cases hx : x = v
    · simp [listRemoveFirst, hx]
    · simp [listRemoveFirst, hx, ih, Ne.symm hx]

theorem except_map_ok {ε α β : Type} {f : α → β} {x : Except ε α} {b : β}
    (h : x.map f = .ok b) : ∃ a, x = .ok a ∧ f a = b := by
  cases x with
  | error e => simp [Except.map] at h
  | ok a => exact ⟨a, rfl, by simpa [Except.map] using h⟩

/-! ### `schedule` loop lemmas -/

theorem scheduleLoop_spec {coll : AList (List String)} {allowed : List String} :
    ∀ {entries : List (Worker × List Nat)} {started : List Worker}
      {r : List (Worker × List Nat) × List Worker × List Msg},
      scheduleLoop coll allowed entries started = .ok r →
      (∀ e ∈ r.1, e ∈ entries ∨
        ∃ c, aget? coll e.1 = some c ∧ e.2 = List.range c.length) ∧
      started ⊆ r.2.1 ∧
      (∀ e ∈ r.1, e.1 ∈ r.2.1) ∧
      r.1.map Prod.fst = entries.map Prod.fst := by
  intro entries
  induction entries with
  | nil =>
    intro started r h
    simp only [scheduleLoop] at h
    injection h with h
    subst h
    exact ⟨by simp, by simp, by simp, by simp⟩
  | cons hd tl ih =>
    intro started r h
    obtain ⟨w, pending⟩ := hd
    rw [scheduleLoop] at h
    by_cases hst : w ∈ started
    · rw [if_pos hst] at h
      obtain ⟨a, hrec, rfl⟩ := except_map_ok h
      obtain ⟨ih1, ih2, ih3, ih4⟩ := ih hrec
      refine ⟨?_, ih2, ?_, by simpa using ih4⟩
      · intro e he
        rcases List.mem_cons.mp he with rfl | he
        · exact Or.inl (List.mem_cons_self _ _)
        · rcases ih1 e he with h1 | h1
          · exact Or.inl (List.mem_cons_of_mem _ h1)
          · exact Or.inr h1
      · intro e he
        rcases List.mem_cons.mp he with rfl | he
        · exact ih2 hst
        · exact ih3 e he
    · rw [if_neg hst] at h
      have hsub : started ⊆ started ++ [w] := List.subset_append_left _ _
      have hwst : w ∈ started ++ [w] := by simp
      by_cases hall : (!is_allowed_worker allowed w) = true
      · rw [if_pos hall] at h
        obtain ⟨a, hrec, rfl⟩ := except_map_ok h
        obtain ⟨ih1, ih2, ih3, ih4⟩ := ih hrec
        refine ⟨?_, hsub.trans ih2, ?_, by simpa using ih4⟩
        · intro e he
          rcases List.mem_cons.mp he with rfl | he
          · exact Or.inl (List.mem_cons_self _ _)
          · rcases ih1 e he with h1 | h1
            · exact Or.inl (List.mem_cons_of_mem _ h1)
            · exact Or.inr h1
        · intro e he
          rcases List.mem_cons.mp he with rfl | he
          · exact ih2 hwst
          · exact ih3 e he
      · rw [if_neg hall] at h
        by_cases hp : pending = []
        · rw [if_pos hp] at h
          cases hc : aget? coll w with
          | none => rw [hc] at h; exact absurd h (by simp)
          | some c =>
            rw [hc] at h
            obtain ⟨a, hrec, rfl⟩ := except_map_ok h
            obtain ⟨ih1, ih2, ih3, ih4⟩ := ih hrec
            refine ⟨?_, hsub.trans ih2, ?_, by simpa using ih4⟩
            · intro e he
              rcases List.mem_cons.mp he with rfl | he
              · exact Or.inr ⟨c, hc, rfl⟩
              · rcases ih1 e he with h1 | h1
                · exact Or.inl (List.mem_cons_of_mem _ h1)
                · exact Or.inr h1
            · intro e he
              rcases List.mem_cons.mp he with rfl | he
              · exact ih2 hwst
              · exact ih3 e he
        · rw [if_neg hp] at h
          obtain ⟨a, hrec, rfl⟩ := except_map_ok h
          obtain ⟨ih1, ih2, ih3, ih4⟩ := ih hrec
          refine ⟨?_, hsub.trans ih2, ?_, by simpa using ih4⟩
          · intro e he
            rcases List.mem_cons.mp he with rfl | he
            · exact Or.inl (List.mem_cons_self _ _)
            · rcases ih1 e he with h1 | h1
              · exact Or.inl (List.mem_cons_of_mem _ h1)
              · exact Or.inr h1
          · intro e he
            rcases List.mem_cons.mp he with rfl | he
            · exact ih2 hwst
            · exact ih3 e he

theorem scheduleLoop_msgs_not_mem {coll : AList (List String)} {allowed : List String} :
    ∀ {entries : List (Worker × List Nat)} {started : List Worker}
      {r : List (Worker × List Nat) × List Worker × List Msg},
      scheduleLoop coll allowed entries started = .ok r →
      ∀ w : Worker, w ∉ entries.map Prod.fst → msgsFor w r.2.2 = [] := by
  intro entries
  induction entries with
  | nil =>
    intro started r h w _
    simp only [scheduleLoop] at h
    injection h with h
    subst h
    rfl
  | cons hd tl ih =>
    intro started r h w hw
    obtain ⟨w', pending⟩ := hd
    have hne : w' ≠ w := by
      intro hcontra
      exact hw (by simp [hcontra])
    have hwtl : w ∉ tl.map Prod.fst := fun hc => hw (by simp [hc])
    rw [scheduleLoop] at h
    by_cases hst : w' ∈ started
    · rw [if_pos hst] at h
      obtain ⟨a, hrec, rfl⟩ := except_map_ok h
      exact ih hrec w hwtl
    · rw [if_neg hst] at h
      by_cases hall : (!is_allowed_worker allowed w') = true
      · rw [if_pos hall] at h
        obtain ⟨a, hrec, rfl⟩ := except_map_ok h
        simpa [msgsFor, msgFor, hne] using ih hrec w hwtl
      · rw [if_neg hall] at h
        by_cases hp : pending = []
        · rw [if_pos hp] at h
          cases hc : aget? coll w' with
          | none => rw [hc] at h; exact absurd h (by simp)
          | some c =>
            rw [hc] at h
            obtain ⟨a, hrec, rfl⟩ := except_map_ok h
            simpa [msgsFor, msgFor, hne] using ih hrec w hwtl
        · rw [if_neg hp] at h
          obtain ⟨a, hrec, rfl⟩ := except_map_ok h
          simpa [msgsFor, msgFor, hne] using ih hrec w hwtl

theorem scheduleLoop_worker {coll : AList (List String)} {allowed : List String} :
    ∀ {entries : List (Worker × List Nat)} {started : List Worker}
      {r : List (Worker × List Nat) × List Worker × List Msg},
      scheduleLoop coll allowed entries started = .ok r →
      (entries.map Prod.fst).Nodup →
      ∀ {w : Worker} {p : List Nat}, (w, p) ∈ entries → w ∉ started →
      w ∈ r.2.1 ∧
      ((is_allowed_worker allowed w = false ∧
          msgsFor w r.2.2 = [Msg.shutdown w] ∧ (w, p) ∈ r.1) ∨
       (is_allowed_worker allowed w = true ∧ p = [] ∧
          ∃ c, aget? coll w = some c ∧ (w, List.range c.length) ∈ r.1 ∧
            msgsFor w r.2.2 = [Msg.runAll w, Msg.shutdown w]) ∨
       (is_allowed_worker allowed w = true ∧ p ≠ [] ∧
          msgsFor w r.2.2 = [Msg.runSome w p] ∧ (w, p) ∈ r.1)) := by
  intro entries
  induction entries with
  | nil => intro started r _ _ w p hmem; exact absurd hmem (by simp)
  | cons hd tl ih =>
    intro started r h hnd w p hmem hnst
    obtain ⟨w', pending⟩ := hd
    have hndtl : (tl.map Prod.fst).Nodup := (List.nodup_cons.mp (by simpa using hnd)).2
    have hw'tl : w' ∉ tl.map Prod.fst := (List.nodup_cons.mp (by simpa using hnd)).1
    rw [scheduleLoop] at h
    rcases List.mem_cons.mp hmem with heq | hmemtl
    · -- the head entry is the worker in question
      obtain ⟨hw, hpend⟩ : w = w' ∧ p = pending := Prod.mk.injEq .. ▸ heq
      subst hw
      subst hpend
      rw [if_neg hnst] at h
      have hwtl : w ∉ tl.map Prod.fst := hw'tl
      by_cases hall : (!is_allowed_worker allowed w) = true
      · rw [if_pos hall] at h
        obtain ⟨a, hrec, rfl⟩ := except_map_ok h
        obtain ⟨-, ih2, -, -⟩ := scheduleLoop_spec hrec
        have hz := scheduleLoop_msgs_not_mem hrec w hwtl
        refine ⟨ih2 (by simp), Or.inl ⟨by simpa using hall, ?_, List.mem_cons_self _ _⟩⟩
        simp only [msgsFor] at hz
        simp [msgsFor, msgFor, hz]
      · rw [if_neg hall] at h
        by_cases hp : p = []
        · rw [if_pos hp] at h
          cases hc : aget? coll w with
          | none => rw [hc] at h; exact absurd h (by simp)
          | some c =>
            rw [hc] at h
            obtain ⟨a, hrec, rfl⟩ := except_map_ok h
            obtain ⟨-, ih2, -, -⟩ := scheduleLoop_spec hrec
            have hz := scheduleLoop_msgs_not_mem hrec w hwtl
            refine ⟨ih2 (by simp),
              Or.inr (Or.inl ⟨by simpa using hall, hp, c, rfl, List.mem_cons_self _ _, ?_⟩)⟩
            simpa [msgsFor, msgFor] using hz
        · rw [if_neg hp] at h
          obtain ⟨a, hrec, rfl⟩ := except_map_ok h
          obtain ⟨-, ih2, -, -⟩ := scheduleLoop_spec hrec
          have hz := scheduleLoop_msgs_not_mem hrec w hwtl
          refine ⟨ih2 (by simp),
            Or.inr (Or.inr ⟨by simpa using hall, hp, ?_, List.mem_cons_self _ _⟩)⟩
          simpa [msgsFor, msgFor] using hz
    · -- the worker in question sits further down the list
      have hne : w' ≠ w := by
        intro hcontra
        subst hcontra
        exact hw'tl (List.mem_map_of_mem Prod.fst hmemtl)
      by_cases hst : w' ∈ started
      · rw [if_pos hst] at h
        obtain ⟨a, hrec, rfl⟩ := except_map_ok h
        obtain ⟨hs, hrest⟩ := ih hrec hndtl hmemtl hnst
        refine ⟨hs, ?_⟩
        rcases hrest with ⟨h1, h2, h3⟩ | ⟨h1, h2, c, hc, h3, h4⟩ | ⟨h1, h2, h3, h4⟩
        · exact Or.inl ⟨h1, h2, List.mem_cons_of_mem _ h3⟩
        · exact Or.inr (Or.inl ⟨h1, h2, c, hc, List.mem_cons_of_mem _ h3, h4⟩)
        · exact Or.inr (Or.inr ⟨h1, h2, h3, List.mem_cons_of_mem _ h4⟩)
      · rw [if_neg hst] at h
        have hnst' : w ∉ started ++ [w'] := by
          simp [hnst, Ne.symm hne]
        by_cases hall : (!is_allowed_worker allowed w') = true
        · rw [if_pos hall] at h
          obtain ⟨a, hrec, rfl⟩ := except_map_ok h
          obtain ⟨hs, hrest⟩ := ih hrec hndtl hmemtl hnst'
          refine ⟨hs, ?_⟩
          rcases hrest with ⟨h1, h2, h3⟩ | ⟨h1, h2, c, hc, h3, h4⟩ | ⟨h1, h2, h3, h4⟩
          · exact Or.inl ⟨h1, by simpa [msgsFor, msgFor, hne] using h2,
              List.mem_cons_of_mem _ h3⟩
          · exact Or.inr (Or.inl ⟨h1, h2, c, hc, List.mem_cons_of_mem _ h3,
              by simpa [msgsFor, msgFor, hne] using h4⟩)
          · exact Or.inr (Or.inr ⟨h1, h2,
              by simpa [msgsFor, msgFor, hne] using h3, List.mem_cons_of_mem _ h4⟩)
        · rw [if_neg hall] at h
          by_cases hp : pending = []
          · rw [if_pos hp] at h
            cases hc' : aget? coll w' with
            | none => rw [hc'] at h; exact absurd h (by simp)
            | some c' =>
              rw [hc'] at h
              obtain ⟨a, hrec, rfl⟩ := except_map_ok h
              obtain ⟨hs, hrest⟩ := ih hrec hndtl hmemtl hnst'
              refine ⟨hs, ?_⟩
              rcases hrest with ⟨h1, h2, h3⟩ | ⟨h1, h2, c, hc, h3, h4⟩ | ⟨h1, h2, h3, h4⟩
              · exact Or.inl ⟨h1, by simpa [msgsFor, msgFor, hne] using h2,
                  List.mem_cons_of_mem _ h3⟩
              · exact Or.inr (Or.inl ⟨h1, h2, c, hc, List.mem_cons_of_mem _ h3,
                  by simpa [msgsFor, msgFor, hne] using h4⟩)
              · exact Or.inr (Or.inr ⟨h1, h2,
                  by simpa [msgsFor, msgFor, hne] using h3, List.mem_cons_of_mem _ h4⟩)
          · rw [if_neg hp] at h
            obtain ⟨a, hrec, rfl⟩ := except_map_ok h
            obtain ⟨hs, hrest⟩ := ih hrec hndtl hmemtl hnst'
            refine ⟨hs, ?_⟩
            rcases hrest with ⟨h1, h2, h3⟩ | ⟨h1, h2, c, hc, h3, h4⟩ | ⟨h1, h2, h3, h4⟩
            · exact Or.inl ⟨h1, by simpa [msgsFor, msgFor, hne] using h2,
                List.mem_cons_of_mem _ h3⟩
            · exact Or.inr (Or.inl ⟨h1, h2, c, hc, List.mem_cons_of_mem _ h3,
                by simpa [msgsFor, msgFor, hne] using h4⟩)
            · exact Or.inr (Or.inr ⟨h1, h2,
                by simpa [msgsFor, msgFor, hne] using h3, List.mem_cons_of_mem _ h4⟩)

theorem scheduleLoop_all_started {coll : AList (List String)} {allowed : List String} :
    ∀ {entries : List (Worker × List Nat)} {started : List Worker},
      (∀ e ∈ entries, e.1 ∈ started) →
      scheduleLoop coll allowed entries started = .ok (entries, started, []) := by
  intro entries
  induction entries with
  | nil => intro started _; rfl
  | cons hd tl ih =>
    intro started hall
    obtain ⟨w, pending⟩ := hd
    rw [scheduleLoop, if_pos (hall (w, pending) (List.mem_cons_self _ _))]
    rw [ih (fun e he => hall e (List.mem_cons_of_mem _ he))]
    rfl

/-! ### The inductive state invariant -/

/-- Invariant carried by every reachable scheduler state: all pending lists
(live and orphaned) are strictly increasing; every pending index is below the
length of some recorded collection; before collection completion no pending
work exists anywhere. -/
def Inv (s : SchedState) : Prop :=
  (∀ e ∈ s.node2pending, List.Sorted (· < ·) e.2) ∧
  (∀ e ∈ s.removed2pending, List.Sorted (· < ·) e.2) ∧
  (∀ e ∈ s.node2pending, ∀ i ∈ e.2, ∃ c ∈ s.node2collection, i < c.2.length) ∧
  (∀ e ∈ s.removed2pending, ∀ i ∈ e.2, ∃ c ∈ s.node2collection, i < c.2.length) ∧
  (s.collection_is_completed = false →
    (∀ e ∈ s.node2pending, e.2 = []) ∧ s.removed2pending = [])

theorem inv_add_node {s s' : SchedState} {w : Worker} (hs : Inv s)
    (h : add_node s w = .ok s') : Inv s' := by
  obtain ⟨h1, h2, h3, h4, h5⟩ := hs
  unfold add_node at h
  by_cases hc : acontains s.node2pending w
  · rw [if_pos hc] at h
    exact absurd h (by simp)
  · rw [if_neg hc] at h
    injection h with h
    subst h
    refine ⟨?_, h2, ?_, h4, ?_⟩
    · intro e he
      rcases mem_aset he with rfl | he
      · exact List.sorted_nil
      · exact h1 e he
    · intro e he i hi
      rcases mem_aset he with rfl | he
      · simp at hi
      · exact h3 e he i hi
    · intro hcc
      refine ⟨?_, (h5 hcc).2⟩
      intro e he
      rcases mem_aset he with rfl | he
      · rfl
      · exact (h5 hcc).1 e he

theorem inv_report {s : SchedState} {w : Worker} {c : List String}
    {r : SchedState × List Msg} (hs : Inv s)
    (h : add_node_collection s w c = .ok r) : Inv r.1 := by
  obtain ⟨h1, h2, h3, h4, h5⟩ := hs
  unfold add_node_collection at h
  by_cases hreg : (!acontains s.node2pending w) = true
  · rw [if_pos hreg] at h
    exact absurd h (by simp)
  · rw [if_neg hreg] at h
    by_cases hcc : (!s.collection_is_completed) = true
    · rw [if_pos hcc] at h
      have hccf : s.collection_is_completed = false := by simpa using hcc
      injection h with h
      subst h
      refine ⟨?_, h2, ?_, ?_, ?_⟩
      · intro e he
        rcases mem_aset he with rfl | he
        · exact List.sorted_nil
        · exact h1 e he
      · intro e he i hi
        rcases mem_aset he with rfl | he
        · simp at hi
        · rw [(h5 hccf).1 e he] at hi
          simp at hi
      · intro e he
        rw [show ({ s with
              node2collection := aset s.node2collection w c,
              node2pending := aset s.node2pending w [],
              collection_is_completed :=
                if (aset s.node2collection w c).length ≥ s.numnodes then true
                else s.collection_is_completed } : SchedState).removed2pending
            = s.removed2pending from rfl, (h5 hccf).2] at he
        simp at he
      · intro _
        refine ⟨?_, (h5 hccf).2⟩
        intro e he
        rcases mem_aset he with rfl | he
        · rfl
        · exact (h5 hccf).1 e he
    · rw [if_neg hcc] at h
      have hcct : s.collection_is_completed = true := by simpa using hcc
      by_cases hre : s.removed2pending.isEmpty = true
      · rw [if_pos hre] at h
        injection h with h
        subst h
        exact ⟨h1, h2, h3, h4, h5⟩
      · rw [if_neg hre] at h
        cases hm : findSpecMatch s.removed2pending w.spec with
        | none =>
          rw [hm] at h
          injection h with h
          subst h
          exact ⟨h1, h2, h3, h4, h5⟩
        | some dp =>
          obtain ⟨d, dpend⟩ := dp
          rw [hm] at h
          simp only [] at h
          cases hdc : aget? s.node2collection d with
          | none =>
            rw [hdc] at h
            exact absurd h (by simp)
          | some deadColl =>
            rw [hdc] at h
            simp only [] at h
            by_cases hne : c ≠ deadColl
            · rw [if_pos hne] at h
              injection h with h
              subst h
              exact ⟨h1, h2, h3, h4, h5⟩
            · rw [if_neg hne] at h
              injection h with h
              subst h
              have hmem := (findSpecMatch_mem hm).1
              refine ⟨?_, ?_, ?_, ?_, ?_⟩
              · intro e he
                rcases mem_aset he with rfl | he
                · exact h2 (d, dpend) hmem
                · exact h1 e he
              · intro e he
                exact h2 e ((apop_sublist _ _).subset he)
              · intro e he i hi
                rcases mem_aset he with rfl | he
                · exact h4 (d, dpend) hmem i hi
                · exact h3 e he i hi
              · intro e he i hi
                exact h4 e ((apop_sublist _ _).subset he) i hi
              · intro hx
                rw [show ({ s with
                      removed2pending := apop s.removed2pending d,
                      node2pending := aset s.node2pending w dpend } :
                    SchedState).collection_is_completed
                    = s.collection_is_completed from rfl, hcct] at hx
                simp at hx

theorem inv_mark {s s' : SchedState} {w : Worker} {i : Nat} (hs : Inv s)
    (h : mark_test_complete s w i = .ok s') : Inv s' := by
  obtain ⟨h1, h2, h3, h4, h5⟩ := hs
  unfold mark_test_complete at h
  cases hp : aget? s.node2pending w with
  | none =>
    rw [hp] at h
    exact absurd h (by simp)
  | some pending =>
    rw [hp] at h
    simp only [] at h
    cases hr : listRemoveFirst pending i with
    | none =>
      rw [hr] at h
      exact absurd h (by simp)
    | some pending' =>
      rw [hr] at h
      simp only [] at h
      injection h with h
      subst h
      have hpm : (w, pending) ∈ s.node2pending := aget?_mem hp
      have hsub := listRemoveFirst_sublist hr
      refine ⟨?_, h2, ?_, h4, ?_⟩
      · intro e he
        rcases mem_aset he with rfl | he
        · exact (h1 _ hpm).sublist hsub
        · exact h1 e he
      · intro e he j hj
        rcases mem_aset he with rfl | he
        · exact h3 _ hpm j (hsub.subset hj)
        · exact h3 e he j hj
      · intro hcc
        refine ⟨?_, (h5 hcc).2⟩
        intro e he
        rcases mem_aset he with rfl | he
        · have : pending = [] := (h5 hcc).1 _ hpm
          subst this
          exact List.sublist_nil.mp hsub
        · exact (h5 hcc).1 e he

theorem inv_remove {s : SchedState} {w : Worker} {r : SchedState × Option String}
    (hs : Inv s) (h : remove_node s w = .ok r) : Inv r.1 := by
  obtain ⟨h1, h2, h3, h4, h5⟩ := hs
  unfold remove_node at h
  cases hp : aget? s.node2pending w with
  | none =>
    rw [hp] at h
    exact absurd h (by simp)
  | some pending =>
    rw [hp] at h
    simp only [] at h
    have hpm : (w, pending) ∈ s.node2pending := aget?_mem hp
    cases pending with
    | nil =>
      injection h with h
      subst h
      refine ⟨?_, h2, ?_, h4, ?_⟩
      · intro e he
        exact h1 e ((apop_sublist _ _).subset he)
      · intro e he i hi
        exact h3 e ((apop_sublist _ _).subset he) i hi
      · intro hcc
        refine ⟨?_, (h5 hcc).2⟩
        intro e he
        exact (h5 hcc).1 e ((apop_sublist _ _).subset he)
    | cons hd t =>
      simp only [] at h
      cases hcol : aget? s.node2collection w with
      | none =>
        rw [hcol] at h
        exact absurd h (by simp)
      | some coll =>
        rw [hcol] at h
        simp only [] at h
        cases hget : coll.get? hd with
        | none =>
          rw [hget] at h
          exact absurd h (by simp)
        | some item =>
          rw [hget] at h
          simp only [] at h
          have htl : List.Sublist t (hd :: t) := List.sublist_cons_self hd t
          by_cases ht : t = []
          · rw [if_neg (not_not_intro ht)] at h
            injection h with h
            subst h
            refine ⟨?_, h2, ?_, h4, ?_⟩
            · intro e he
              exact h1 e ((apop_sublist _ _).subset he)
            · intro e he i hi
              exact h3 e ((apop_sublist _ _).subset he) i hi
            · intro hcc
              refine ⟨?_, (h5 hcc).2⟩
              intro e he
              exact (h5 hcc).1 e ((apop_sublist _ _).subset he)
          · rw [if_pos ht] at h
            injection h with h
            subst h
            have hnotpre : s.collection_is_completed = true := by
              cases hcompl : s.collection_is_completed with
              | false => exact absurd ((h5 hcompl).1 _ hpm) (by simp)
              | true => rfl
            refine ⟨?_, ?_, ?_, ?_, ?_⟩
            · intro e he
              exact h1 e ((apop_sublist _ _).subset he)
            · intro e he
              rcases mem_aset he with rfl | he
              · exact (h1 _ hpm).sublist htl
              · exact h2 e he
            · intro e he i hi
              exact h3 e ((apop_sublist _ _).subset he) i hi
            · intro e he i hi
              rcases mem_aset he with rfl | he
              · exact h3 _ hpm i (htl.subset hi)
              · exact h4 e he i hi
            · intro hx
              rw [show ∀ s0 : SchedState, ∀ x y,
                    ({ s0 with node2pending := x, removed2pending := y } :
                      SchedState).collection_is_completed
                    = s0.collection_is_completed from fun _ _ _ => rfl,
                  hnotpre] at hx
              simp at hx

theorem inv_schedule {s : SchedState} {r : SchedState × List Msg} (hs : Inv s)
    (h : schedule s = .ok r) : Inv r.1 := by
  obtain ⟨h1, h2, h3, h4, h5⟩ := hs
  unfold schedule at h
  by_cases hcc : (!s.collection_is_completed) = true
  · rw [if_pos hcc] at h
    exact absurd h (by simp)
  · rw [if_neg hcc] at h
    have hcct : s.collection_is_completed = true := by simpa using hcc
    cases hl : scheduleLoop s.node2collection s.allowed_workers s.node2pending
        s.started with
    | error e =>
      rw [hl] at h
      exact absurd h (by simp)
    | ok a =>
      obtain ⟨entries, started', msgs⟩ := a
      rw [hl] at h
      injection h with h
      subst h
      obtain ⟨l1, -, -, -⟩ := scheduleLoop_spec hl
      refine ⟨?_, h2, ?_, h4, ?_⟩
      · intro e he
        rcases l1 e he with he' | ⟨c, hc, he2⟩
        · exact h1 e he'
        · rw [he2]
          exact List.pairwise_lt_range _
      · intro e he i hi
        rcases l1 e he with he' | ⟨c, hc, he2⟩
        · exact h3 e he' i hi
        · rw [he2] at hi
          exact ⟨(e.1, c), aget?_mem hc, List.mem_range.mp hi⟩
      · intro hx
        rw [show ∀ s0 : SchedState, ∀ x y,
              ({ s0 with node2pending := x, started := y } :
                SchedState).collection_is_completed
              = s0.collection_is_completed from fun _ _ _ => rfl, hcct] at hx
        simp at hx

theorem inv_init (n : Nat) (allowed : List String) : Inv (initState n allowed) := by
  refine ⟨?_, ?_, ?_, ?_, ?_⟩ <;> simp [initState]

theorem inv_step {s s' : SchedState} {op : Op} (hs : Inv s)
    (h : applyOp s op = .ok s') : Inv s' := by
  cases op with
  | join w => exact inv_add_node hs h
  | report w c =>
    obtain ⟨a, ha, rfl⟩ := except_map_ok h
    exact inv_report hs ha
  | markComplete w i => exact inv_mark hs h
  | removeWorker w =>
    obtain ⟨a, ha, rfl⟩ := except_map_ok h
    exact inv_remove hs ha
  | dispatch =>
    obtain ⟨a, ha, rfl⟩ := except_map_ok h
    exact inv_schedule hs ha

theorem reachable_inv {s : SchedState} (h : Reachable s) : Inv s := by
  induction h with
  | init n allowed => exact inv_init n allowed
  | step op hr happ ih => exact inv_step ih happ

/-- Run a sequence of operations from a state, stopping at the first error. -/
def runOps : SchedState → List Op → Except SchedErr SchedState
  | s, [] => .ok s
  | s, op :: ops =>
    match applyOp s op with
    | .error e => .error e
    | .ok s' => runOps s' ops

theorem reachable_runOps :
    ∀ {ops : List Op} {s s' : SchedState},
      Reachable s → runOps s ops = .ok s' → Reachable s' := by
  intro ops
  induction ops with
  | nil =>
    intro s s' hr h
    injection h with h
    subst h
    exact hr
  | cons op rest ih =>
    intro s s' hr h
    unfold runOps at h
    cases happ : applyOp s op with
    | error e =>
      rw [happ] at h
      exact absurd h (by simp)
    | ok s1 =>
      rw [happ] at h
      exact ih (Reachable.step op hr happ) h

/-! ### `collection_is_completed` per-operation behaviour -/

theorem add_node_complete_eq {s s' : SchedState} {w : Worker}
    (h : add_node s w = .ok s') :
    s'.collection_is_completed = s.collection_is_completed := by
  unfold add_node at h
  split at h
  · exact absurd h (by simp)
  · injection h with h
    subst h
    rfl

theorem mark_complete_eq {s s' : SchedState} {w : Worker} {i : Nat}
    (h : mark_test_complete s w i = .ok s') :
    s'.collection_is_completed = s.collection_is_completed := by
  unfold mark_test_complete at h
  split at h
  · exact absurd h (by simp)
  · split at h
    · exact absurd h (by simp)
    · injection h with h
      subst h
      rfl

theorem remove_complete_eq {s : SchedState} {w : Worker}
    {r : SchedState × Option String} (h : remove_node s w = .ok r) :
    r.1.collection_is_completed = s.collection_is_completed := by
  unfold remove_node at h
  split at h
  · exact absurd h (by simp)
  · split at h
    · injection h with h
      subst h
      rfl
    · split at h
      · exact absurd h (by simp)
      · split at h
        · exact absurd h (by simp)
        · split at h
          · injection h with h
            subst h
            rfl
          · injection h with h
            subst h
            rfl

theorem schedule_complete_eq {s : SchedState} {r : SchedState × List Msg}
    (h : schedule s = .ok r) :
    r.1.collection_is_completed = s.collection_is_completed := by
  unfold schedule at h
  split at h
  · exact absurd h (by simp)
  · split at h
    · exact absurd h (by simp)
    · injection h with h
      subst h
      rfl

theorem report_complete_mono {s : SchedState} {w : Worker} {c : List String}
    {r : SchedState × List Msg} (h : add_node_collection s w c = .ok r)
    (hc : s.collection_is_completed = true) :
    r.1.collection_is_completed = true := by
  unfold add_node_collection at h
  split at h
  · exact absurd h (by simp)
  · split at h
    · rename_i hcond
      rw [hc] at hcond
      simp at hcond
    · split at h
      · injection h with h
        subst h
        exact hc
      · split at h
        · injection h with h
          subst h
          exact hc
        · split at h
          · exact absurd h (by simp)
          · split at h
            · injection h with h
              subst h
              exact hc
            · injection h with h
              subst h
              exact hc

theorem applyOp_complete_mono {s s' : SchedState} {op : Op}
    (h : applyOp s op = .ok s') (hc : s.collection_is_completed = true) :
    s'.collection_is_completed = true := by
  cases op with
  | join w => exact (add_node_complete_eq h).trans hc
  | report w c =>
    obtain ⟨a, ha, rfl⟩ := except_map_ok h
    exact report_complete_mono ha hc
  | markComplete w i => exact (mark_complete_eq h).trans hc
  | removeWorker w =>
    obtain ⟨a, ha, rfl⟩ := except_map_ok h
    exact (remove_complete_eq ha).trans hc
  | dispatch =>
    obtain ⟨a, ha, rfl⟩ := except_map_ok h
    exact (schedule_complete_eq ha).trans hc

/-! ### Claim theorems -/

/-- Claim C6: in every state, `tests_finished` returns true iff collection is
completed, `removed2pending` is empty, and every registered worker's pending
list has length strictly less than two. -/
theorem claim6_tests_finished (s : SchedState) :
    tests_finished s = true ↔
      s.collection_is_completed = true ∧ s.removed2pending = [] ∧
        ∀ e ∈ s.node2pending, e.2.length < 2 := by
  unfold tests_finished
  cases hc : s.collection_is_completed <;> cases hre : s.removed2pending <;>
    simp [List.all_eq_true]

/-- Claim C1 (counterexample): the claim that a post-completion report from a
worker whose spec matches no dead worker stores the collection in
`node2collection` is false — the code stores nothing in that branch. -/
theorem claim1_cex :
    ¬ (∀ (s : SchedState) (w : Worker) (c : List String)
        (r : SchedState × List Msg),
        s.collection_is_completed = true →
        acontains s.node2pending w = true →
        findSpecMatch s.removed2pending w.spec = none →
        add_node_collection s w c = .ok r →
        aget? r.1.node2collection w = some c ∧
          aget? r.1.node2pending w = some []) := by
  intro hclaim
  have h := hclaim s1c wD ["x"] (s1c, []) rfl rfl rfl rfl
  have hx : aget? s1c.node2collection wD = some ["x"] := h.1
  simp [s1c, aget?, wA, wD] at hx

/-- Claim C1 (amended): a post-completion report from a registered worker
whose spec matches no dead worker in `removed2pending` leaves the scheduler
state entirely unchanged and emits nothing — in particular its collection is
NOT stored and its pending list stays as it was (empty if it was empty). -/
theorem claim1_no_match_no_store (s : SchedState) (w : Worker) (c : List String)
    (hc : s.collection_is_completed = true)
    (hreg : acontains s.node2pending w = true)
    (hm : findSpecMatch s.removed2pending w.spec = none) :
    add_node_collection s w c = .ok (s, []) := by
  unfold add_node_collection
  cases hrem : s.removed2pending with
  | nil => simp [hreg, hc]
  | cons hd tl =>
    rw [hrem] at hm
    simp [hreg, hc, hm]

/-- Claim C1 (witness): concrete instance of the amended claim. -/
theorem claim1_witness :
    s1c.collection_is_completed = true ∧ acontains s1c.node2pending wD = true ∧
    findSpecMatch s1c.removed2pending wD.spec = none ∧
    add_node_collection s1c wD ["x"] = .ok (s1c, []) :=
  ⟨rfl, rfl, rfl, claim1_no_match_no_store s1c wD ["x"] rfl rfl rfl⟩

/-- Claim C5 (counterexample): the claim quantified over "some dead worker
with equal spec but unequal collection" is false: when an earlier dead worker
in iteration order matches both spec and collection, the hand-off proceeds
silently even though a later dead worker has an unequal collection. -/
theorem claim5_cex :
    ¬ (∀ (s : SchedState) (w : Worker) (c : List String)
        (r : SchedState × List Msg),
        s.collection_is_completed = true →
        acontains s.node2pending w = true →
        (∃ e ∈ s.removed2pending, e.1.spec = w.spec ∧
          ∃ dc, aget? s.node2collection e.1 = some dc ∧ c ≠ dc) →
        add_node_collection s w c = .ok r →
        r.1 = s ∧
          ∃ d dc, aget? s.node2collection d = some dc ∧
            r.2 = [Msg.diag dc c d.wid w.wid]) := by
  intro hclaim
  have h := hclaim sC5x wC ["a", "b", "c"] (sC5xOut, []) rfl rfl
    ⟨(wB, [1, 2]), by decide, by decide, ["a", "b", "d"], by decide, by decide⟩
    rfl
  obtain ⟨-, d, dc, -, hdg⟩ := h
  simp at hdg

/-- Claim C5 (amended): when the first dead worker in `removed2pending`'s
iteration order whose spec equals the reporting worker's spec has a recorded
collection not element-wise equal to the reported one, the state is left
unchanged (the dead entry stays, the reporter's pending list stays) and
exactly one diagnostic carrying both collections and both ids is emitted. -/
theorem claim5_mismatch_diag (s : SchedState) (w : Worker) (c : List String)
    (d : Worker) (dp : List Nat) (dc : List String)
    (hc : s.collection_is_completed = true)
    (hreg : acontains s.node2pending w = true)
    (hm : findSpecMatch s.removed2pending w.spec = some (d, dp))
    (hdc : aget? s.node2collection d = some dc)
    (hne : c ≠ dc) :
    add_node_collection s w c = .ok (s, [Msg.diag dc c d.wid w.wid]) := by
  unfold add_node_collection
  cases hrem : s.removed2pending with
  | nil =>
    rw [hrem] at hm
    simp [findSpecMatch] at hm
  | cons hd tl =>
    rw [hrem] at hm
    simp [hreg, hc, hm, hdc, hne]

/-- Claim C5 (witness): concrete mismatch instance of the amended claim. -/
theorem claim5_witness :
    s5w.collection_is_completed = true ∧ acontains s5w.node2pending wC = true ∧
    findSpecMatch s5w.removed2pending wC.spec = some (wA, [1, 2]) ∧
    aget? s5w.node2collection wA = some ["a", "b", "c"] ∧
    add_node_collection s5w wC ["x", "y", "z"] =
      .ok (s5w, [Msg.diag ["a", "b", "c"] ["x", "y", "z"] wA.wid wC.wid]) :=
  ⟨rfl, rfl, rfl, rfl,
    claim5_mismatch_diag s5w wC ["x", "y", "z"] wA [1, 2] ["a", "b", "c"]
      rfl rfl rfl rfl (by decide)⟩

/-- Claim C4: `remove_node` deletes the worker's pending entry; with empty
pending it returns no crash item and stashes nothing; with pending `h :: t`
it returns the identifier at index `h` of the worker's stored collection and
stashes `t` in `removed2pending` exactly when `t` is non-empty. -/
theorem claim4_remove_node (s : SchedState) (w : Worker) :
    (aget? s.node2pending w = some [] →
      remove_node s w =
        .ok ({ s with node2pending := apop s.node2pending w }, none)) ∧
    (∀ (h0 : Nat) (t : List Nat) (coll : List String) (item : String),
      aget? s.node2pending w = some (h0 :: t) →
      aget? s.node2collection w = some coll →
      coll.get? h0 = some item →
      remove_node s w = .ok
        ({ s with node2pending := apop s.node2pending w,
                  removed2pending :=
                    if t = [] then s.removed2pending
                    else aset s.removed2pending w t }, some item)) := by
  constructor
  · intro hp
    unfold remove_node
    rw [hp]
  · intro h0 t coll item hp hcol hget
    unfold remove_node
    rw [hp]
    simp only []
    rw [hcol]
    simp only []
    rw [hget]
    simp only []
    by_cases ht : t = []
    · rw [if_neg (not_not_intro ht), if_pos ht]
    · rw [if_pos ht, if_neg ht]

/-- Claim C4 (witness): a worker dying with pending `[0, 1, 2]` yields crash
item `"t0"` and stashes `[1, 2]`. -/
theorem claim4_witness :
    aget? s4w.node2pending wA = some [0, 1, 2] ∧
    aget? s4w.node2collection wA = some ["t0", "t1", "t2"] ∧
    remove_node s4w wA = .ok (s4wOut, some "t0") := by
  refine ⟨rfl, rfl, ?_⟩
  have h := (claim4_remove_node s4w wA).2 0 [1, 2] ["t0", "t1", "t2"] "t0"
    rfl rfl rfl
  rw [h]
  rfl

/-- Claim C9: each usage/precondition violation aborts the calling operation:
re-joining a registered worker, dispatching before completion, completing an
index not pending, and completing or removing an unregistered worker. -/
theorem claim9_preconditions :
    (∀ (s : SchedState) (w : Worker), acontains s.node2pending w = true →
      add_node s w = .error .assertionError) ∧
    (∀ s : SchedState, s.collection_is_completed = false →
      schedule s = .error .assertionError) ∧
    (∀ (s : SchedState) (w : Worker) (i : Nat) (p : List Nat),
      aget? s.node2pending w = some p → i ∉ p →
      mark_test_complete s w i = .error .valueError) ∧
    (∀ (s : SchedState) (w : Worker) (i : Nat),
      aget? s.node2pending w = none →
      mark_test_complete s w i = .error .keyError) ∧
    (∀ (s : SchedState) (w : Worker), aget? s.node2pending w = none →
      remove_node s w = .error .keyError) := by
  refine ⟨?_, ?_, ?_, ?_, ?_⟩
  · intro s w hreg
    unfold add_node
    simp [hreg]
  · intro s hc
    unfold schedule
    simp [hc]
  · intro s w i p hp hni
    unfold mark_test_complete
    rw [hp]
    simp only []
    rw [listRemoveFirst_eq_none.mpr hni]
  · intro s w i hp
    unfold mark_test_complete
    rw [hp]
  · intro s w hp
    unfold remove_node
    rw [hp]

/-- Claim C9 (witness): concrete instances of all four violation classes. -/
theorem claim9_witness :
    acontains sW.node2pending wA = true ∧
    add_node sW wA = .error .assertionError ∧
    s8w.collection_is_completed = false ∧
    schedule s8w = .error .assertionError ∧
    aget? sW.node2pending wA = some [] ∧
    mark_test_complete sW wA 5 = .error .valueError ∧
    aget? sW.node2pending wB = none ∧
    mark_test_complete sW wB 0 = .error .keyError ∧
    remove_node sW wB = .error .keyError :=
  ⟨rfl, claim9_preconditions.1 sW wA rfl, rfl,
   claim9_preconditions.2.1 s8w rfl, rfl,
   claim9_preconditions.2.2.1 sW wA 5 [] rfl (by simp),
   rfl, claim9_preconditions.2.2.2.1 sW wB 0 rfl,
   claim9_preconditions.2.2.2.2 sW wB rfl⟩

/-- Claim C8: before completion, a report stores the collection, empties the
worker's pending list, and `collection_is_completed` becomes true exactly when
the number of recorded collections reaches `numnodes`; moreover completion is
monotonic under every operation. -/
theorem claim8_completion :
    (∀ (s : SchedState) (w : Worker) (c : List String)
        (r : SchedState × List Msg),
        s.collection_is_completed = false →
        add_node_collection s w c = .ok r →
        aget? r.1.node2collection w = some c ∧
        aget? r.1.node2pending w = some [] ∧
        (r.1.collection_is_completed = true ↔
          r.1.node2collection.length ≥ s.numnodes)) ∧
    (∀ (s s' : SchedState) (op : Op),
        applyOp s op = .ok s' → s.collection_is_completed = true →
        s'.collection_is_completed = true) := by
  constructor
  · intro s w c r hcf h
    unfold add_node_collection at h
    split at h
    · exact absurd h (by simp)
    · split at h
      · injection h with h
        subst h
        refine ⟨aget?_aset_self .., aget?_aset_self .., ?_⟩
        by_cases hge : (aset s.node2collection w c).length ≥ s.numnodes
        · simp [hge]
        · simp [hge, hcf]
      · rename_i hcond
        rw [hcf] at hcond
        simp at hcond
  · intro s s' op h hc
    exact applyOp_complete_mono h hc

/-- Claim C8 (witness): the second of two expected reports completes the
collection; a dispatch preserves completion. -/
theorem claim8_witness :
    s8w.collection_is_completed = false ∧
    add_node_collection s8w wB ["t0"] = .ok (s8wOut, []) ∧
    aget? s8wOut.node2collection wB = some ["t0"] ∧
    aget? s8wOut.node2pending wB = some [] ∧
    (s8wOut.collection_is_completed = true ↔
      s8wOut.node2collection.length ≥ s8w.numnodes) ∧
    sWOut.collection_is_completed = true := by
  have h1 := claim8_completion.1 s8w wB ["t0"] (s8wOut, []) rfl rfl
  have h2 := claim8_completion.2 sW sWOut Op.dispatch rfl rfl
  exact ⟨rfl, rfl, h1.1, h1.2.1, h1.2.2, h2⟩

/-- Claim C2 (counterexample): the per-worker index invariant is false on a
reachable state: a replacement worker inherits the dead worker's pending
indices without ever getting its own entry in `node2collection`. -/
theorem claim2_cex :
    ¬ (∀ s : SchedState, Reachable s →
        ∀ e ∈ s.node2pending, ∀ i ∈ e.2,
          ∃ c, aget? s.node2collection e.1 = some c ∧ i < c.length) := by
  intro hclaim
  have hr : Reachable sBad :=
    reachable_runOps (Reachable.init 1 [])
      (show runOps (initState 1 []) opsA = .ok sBad from rfl)
  have h := hclaim sBad hr (wB, [1, 2]) (by simp [sBad]) 1 (by simp)
  obtain ⟨c, hc, -⟩ := h
  rw [show aget? sBad.node2collection wB = none from by decide] at hc
  exact Option.noConfusion hc

/-- Claim C2 (amended): in every reachable state, every index pending for any
registered worker is strictly below the length of some collection recorded in
`node2collection` (the matched dead worker's when the worker is a
replacement); the worker itself need not have a collections entry. -/
theorem claim2_inv {s : SchedState} (hr : Reachable s) :
    ∀ e ∈ s.node2pending, ∀ i ∈ e.2,
      ∃ c ∈ s.node2collection, i < c.2.length :=
  (reachable_inv hr).2.2.1

/-- Claim C2 (witness): the amended invariant instantiated on the reachable
state `sBad`. -/
theorem claim2_witness :
    Reachable sBad ∧
    (∀ e ∈ sBad.node2pending, ∀ i ∈ e.2,
      ∃ c ∈ sBad.node2collection, i < c.2.length) := by
  have hr : Reachable sBad :=
    reachable_runOps (Reachable.init 1 [])
      (show runOps (initState 1 []) opsA = .ok sBad from rfl)
  exact ⟨hr, claim2_inv hr⟩

/-- Claim C10: in every reachable state, every pending list — live in
`node2pending` or orphaned in `removed2pending` — is strictly increasing and
duplicate-free. -/
theorem claim10_sorted {s : SchedState} (hr : Reachable s) :
    (∀ e ∈ s.node2pending, List.Sorted (· < ·) e.2 ∧ e.2.Nodup) ∧
    (∀ e ∈ s.removed2pending, List.Sorted (· < ·) e.2 ∧ e.2.Nodup) := by
  obtain ⟨h1, h2, -, -, -⟩ := reachable_inv hr
  exact ⟨fun e he => ⟨h1 e he, (h1 e he).nodup⟩,
         fun e he => ⟨h2 e he, (h2 e he).nodup⟩⟩

/-- Claim C10 (witness): the invariant instantiated on the reachable state
reached by join, report and dispatch. -/
theorem claim10_witness :
    Reachable sWOut ∧
    (∀ e ∈ sWOut.node2pending, List.Sorted (· < ·) e.2 ∧ e.2.Nodup) ∧
    (∀ e ∈ sWOut.removed2pending, List.Sorted (· < ·) e.2 ∧ e.2.Nodup) := by
  have hr : Reachable sWOut :=
    reachable_runOps (Reachable.init 1 [])
      (show runOps (initState 1 [])
        [.join wA, .report wA ["t0", "t1", "t2"], .dispatch] = .ok sWOut
        from rfl)
  exact ⟨hr, (claim10_sorted hr).1, (claim10_sorted hr).2⟩

/-- Claim C3: for every worker not yet started when a successful dispatch
runs: if excluded by the allow-list it gets exactly one shutdown and no run
command; else with empty pending its pending becomes the full range of its
own collection and it gets run-all followed by shutdown; else it gets exactly
a run-subset of its pending list and no shutdown; in all cases it is marked
started. -/
theorem claim3_dispatch {s s' : SchedState} {msgs : List Msg} {w : Worker}
    {p : List Nat}
    (hnd : (s.node2pending.map Prod.fst).Nodup)
    (hok : schedule s = .ok (s', msgs))
    (hmem : (w, p) ∈ s.node2pending)
    (hnst : w ∉ s.started) :
    w ∈ s'.started ∧
    (is_allowed_worker s.allowed_workers w = false →
      msgsFor w msgs = [Msg.shutdown w] ∧ (w, p) ∈ s'.node2pending) ∧
    (is_allowed_worker s.allowed_workers w = true → p = [] →
      ∃ c, aget? s.node2collection w = some c ∧
        (w, List.range c.length) ∈ s'.node2pending ∧
        msgsFor w msgs = [Msg.runAll w, Msg.shutdown w]) ∧
    (is_allowed_worker s.allowed_workers w = true → p ≠ [] →
      msgsFor w msgs = [Msg.runSome w p] ∧ (w, p) ∈ s'.node2pending) := by
  unfold schedule at hok
  split at hok
  · exact absurd hok (by simp)
  · split at hok
    · exact absurd hok (by simp)
    · rename_i entries started' msgs' hleq
      injection hok with hok
      obtain ⟨hs', hmsgs⟩ :
          ({ s with node2pending := entries, started := started' } :
            SchedState) = s' ∧ msgs' = msgs := Prod.mk.injEq .. ▸ hok
      subst hs'
      subst hmsgs
      obtain ⟨hstarted, hdisj⟩ := scheduleLoop_worker hleq hnd hmem hnst
      refine ⟨hstarted, ?_, ?_, ?_⟩
      · intro hfalse
        rcases hdisj with ⟨-, hm1, hm2⟩ | ⟨htrue, -⟩ | ⟨htrue, -⟩
        · exact ⟨hm1, hm2⟩
        · rw [hfalse] at htrue
          exact absurd htrue (by simp)
        · rw [hfalse] at htrue
          exact absurd htrue (by simp)
      · intro htrue hpnil
        rcases hdisj with ⟨hfalse, -⟩ | ⟨-, -, c, hc, hmm, hms⟩ | ⟨-, hpne, -⟩
        · rw [htrue] at hfalse
          exact absurd hfalse (by simp)
        · exact ⟨c, hc, hmm, hms⟩
        · exact absurd hpnil hpne
      · intro htrue hpne
        rcases hdisj with ⟨hfalse, -⟩ | ⟨-, hpnil, -⟩ | ⟨-, -, hms, hmm⟩
        · rw [htrue] at hfalse
          exact absurd hfalse (by simp)
        · exact absurd hpnil hpne
        · exact ⟨hms, hmm⟩

/-- Claim C3 (witness): dispatch over `s3w` — excluded worker `wD` gets only
a shutdown and is marked started. -/
theorem claim3_witness :
    (s3w.node2pending.map Prod.fst).Nodup ∧
    schedule s3w = .ok (s3wOut, msgs3wOut) ∧
    (wD, ([] : List Nat)) ∈ s3w.node2pending ∧ wD ∉ s3w.started ∧
    wD ∈ s3wOut.started ∧ msgsFor wD msgs3wOut = [Msg.shutdown wD] ∧
    (wD, ([] : List Nat)) ∈ s3wOut.node2pending := by
  have h := @claim3_dispatch s3w s3wOut msgs3wOut wD []
    (by decide) rfl (by decide) (by decide)
  have h2 := h.2.1 (by decide)
  exact ⟨by decide, rfl, by decide, by decide, h.1, h2.1, h2.2⟩

/-- Claim C7: dispatch is idempotent — after a successful dispatch, a second
dispatch with no intervening change emits no commands and leaves the state
unchanged, and the started set only grows. -/
theorem claim7_idempotent {s s' : SchedState} {msgs : List Msg}
    (hok : schedule s = .ok (s', msgs)) :
    schedule s' = .ok (s', []) ∧ s.started ⊆ s'.started := by
  unfold schedule at hok
  split at hok
  · exact absurd hok (by simp)
  · rename_i hcc
    split at hok
    · exact absurd hok (by simp)
    · rename_i entries started' msgs' hleq
      injection hok with hok
      obtain ⟨hs', hmsgs⟩ :
          ({ s with node2pending := entries, started := started' } :
            SchedState) = s' ∧ msgs' = msgs := Prod.mk.injEq .. ▸ hok
      subst hs'
      subst hmsgs
      obtain ⟨-, hsub, hall, -⟩ := scheduleLoop_spec hleq
      constructor
      · have hloop := @scheduleLoop_all_started
          s.node2collection s.allowed_workers entries started' hall
        unfold schedule
        simp only []
        rw [if_neg hcc, hloop]
      · exact hsub

/-- Claim C7 (witness): a concrete dispatch followed by an idempotent second
dispatch. -/
theorem claim7_witness :
    schedule sW = .ok (sWOut, [Msg.runAll wA, Msg.shutdown wA]) ∧
    schedule sWOut = .ok (sWOut, []) ∧ sW.started ⊆ sWOut.started := by
  have h := @claim7_idempotent sW sWOut [Msg.runAll wA, Msg.shutdown wA] rfl
  exact ⟨rfl, h.1, h.2⟩

end EachSched
